import Mathlib

/-!
# Verification of the led-star animation core

Shallow embedding of the `led-star` repository's core library
(`src/lib/src/{star,slotmap,streak,osc}.rs`) together with proofs of the
behavioural claims about it.  Machine integers (`u8`, `u16`, `i8`) are
modelled as `Nat`/`Int` with explicit wrapping where the source wraps.
-/

set_option autoImplicit false
set_option maxRecDepth 8000

/-- HSV color triple (`color.rs`: struct `Hsv` with three `u8` channels). -/
structure Hsv where
  h : Nat
  s : Nat
  v : Nat
deriving DecidableEq, Repr

/-- Source `pattern.rs`: `Index { index: u8, total: u8 }`, locating an entity or an
LED inside an entity. -/
structure Index where
  index : Nat
  total : Nat
deriving DecidableEq, Repr

/-- The three pure color queries of the `Pattern` trait (`pattern.rs`).
`tick` is modelled separately where a claim needs it; between ticks the
queries are pure functions, which is what this record captures. -/
structure Pattern where
  spineColorAt : Index → Index → Hsv
  spineTipColorAt : Index → Index → Hsv
  arcColorAt : Index → Index → Hsv

/-- Source `star.rs`: the `Layout` trait.  Per-index lengths are total functions on
`Nat`; the `u8`/`u16` ranges of the source appear as hypotheses where they
matter. -/
structure Layout where
  spines : Nat
  spineLenAt : Nat → Nat
  tipLenAt : Nat → Nat
  arcLenAt : Nat → Nat
  leds : Nat

/-- Source `star.rs`: enum `Position` of the traversal state machine. -/
inductive Position where
  | spineOut
  | spineTip
  | spineBack
  | arc
deriving DecidableEq, Repr

/-- Source `star.rs`: the mutable fields of `StarIter`. -/
structure StarIter where
  currentSpine : Nat
  currentPosition : Position
  positionOffset : Nat
deriving DecidableEq, Repr

/-- Source `star.rs` lines 133-196: `StarIter::advance`.  The source's early
`return false` leaves the position/offset fields as they stand with
`current_spine` already incremented past the end; the embedding returns that
same final state (`next` only inspects `currentSpine`). -/
def StarIter.advance (L : Layout) (s : StarIter) : StarIter :=
  let off := s.positionOffset + 1
  match s.currentPosition with
  | .spineOut =>
    if L.spineLenAt s.currentSpine ≤ off then
      if L.tipLenAt s.currentSpine = 0 then
        ⟨s.currentSpine, .spineBack, 0⟩
      else
        ⟨s.currentSpine, .spineTip, 0⟩
    else
      ⟨s.currentSpine, .spineOut, off⟩
  | .spineTip =>
    if L.tipLenAt s.currentSpine ≤ off then
      ⟨s.currentSpine, .spineBack, 0⟩
    else
      ⟨s.currentSpine, .spineTip, off⟩
  | .spineBack =>
    if L.spineLenAt s.currentSpine ≤ off then
      if L.arcLenAt s.currentSpine = 0 then
        if L.spines ≤ s.currentSpine + 1 then
          ⟨s.currentSpine + 1, .spineBack, off⟩
        else
          ⟨s.currentSpine + 1, .spineOut, 0⟩
      else
        ⟨s.currentSpine, .arc, 0⟩
    else
      ⟨s.currentSpine, .spineBack, off⟩
  | .arc =>
    if L.arcLenAt s.currentSpine ≤ off then
      if L.spines ≤ s.currentSpine + 1 then
        ⟨s.currentSpine + 1, .arc, off⟩
      else
        ⟨s.currentSpine + 1, .spineOut, 0⟩
    else
      ⟨s.currentSpine, .arc, off⟩

/-- Source `star.rs` lines 198-269: `StarIter::next`: emit the color for the
current state, then advance. -/
def StarIter.next (L : Layout) (P : Pattern) (s : StarIter) :
    Option (Hsv × StarIter) :=
  if L.spines ≤ s.currentSpine then
    none
  else
    let spineIndex : Index := ⟨s.currentSpine, L.spines⟩
    let color :=
      match s.currentPosition with
      | .spineOut =>
        P.spineColorAt spineIndex
          ⟨s.positionOffset, L.spineLenAt s.currentSpine⟩
      | .spineTip =>
        P.spineTipColorAt spineIndex
          ⟨s.positionOffset, L.tipLenAt s.currentSpine⟩
      | .spineBack =>
        P.spineColorAt spineIndex
          ⟨L.spineLenAt s.currentSpine - 1 - s.positionOffset,
            L.spineLenAt s.currentSpine⟩
      | .arc =>
        P.arcColorAt spineIndex
          ⟨s.positionOffset, L.arcLenAt s.currentSpine⟩
    some (color, s.advance L)

/-- Source `star.rs` lines 271-275: `StarIter::size_hint` returns
`(layout.leds(), Some(layout.leds()))` for every iterator state; the
`ExactSizeIterator::len` default method reports its first component. -/
def StarIter.sizeHint (L : Layout) (_s : StarIter) : Nat :=
  L.leds

/-- The initial iterator state built by `Star::iter` (`star.rs` line 98). -/
def StarIter.init : StarIter := ⟨0, .spineOut, 0⟩

/-- Drive the iterator: collect the colors the traversal emits.  `fuel`
bounds the number of `next` calls; the theorems show that any fuel of at
least `Layout.leds` produces the complete traversal. -/
def runIter (L : Layout) (P : Pattern) : Nat → StarIter → List Hsv
  | 0, _ => []
  | fuel + 1, s =>
    match StarIter.next L P s with
    | none => []
    | some (c, s2) => c :: runIter L P fuel s2

/-- LEDs contributed by one spine: out run, mirrored back run, tip, arc. -/
def spineTotal (L : Layout) (i : Nat) : Nat :=
  2 * L.spineLenAt i + L.tipLenAt i + L.arcLenAt i

/-- LEDs still to be emitted within the current spine, by phase. -/
def posRemaining (L : Layout) (i : Nat) : Position → Nat → Nat
  | .spineOut, off =>
    (L.spineLenAt i - off) + L.tipLenAt i + L.spineLenAt i + L.arcLenAt i
  | .spineTip, off => (L.tipLenAt i - off) + L.spineLenAt i + L.arcLenAt i
  | .spineBack, off => (L.spineLenAt i - off) + L.arcLenAt i
  | .arc, off => L.arcLenAt i - off

/-- Number of LEDs the iterator will still emit from a given state. -/
def remaining (L : Layout) (s : StarIter) : Nat :=
  if s.currentSpine < L.spines then
    posRemaining L s.currentSpine s.currentPosition s.positionOffset
      + ∑ j in Finset.Ico (s.currentSpine + 1) L.spines, spineTotal L j
  else 0

/-- Length of the run the current phase walks through. -/
def posLen (L : Layout) (i : Nat) : Position → Nat
  | .spineOut => L.spineLenAt i
  | .spineTip => L.tipLenAt i
  | .spineBack => L.spineLenAt i
  | .arc => L.arcLenAt i

/-- Reachable-state invariant of the traversal: either finished, or the
offset lies inside the current run. -/
def ValidState (L : Layout) (s : StarIter) : Prop :=
  L.spines ≤ s.currentSpine ∨
    s.positionOffset < posLen L s.currentSpine s.currentPosition

/-- Every spine run of the layout is nonempty. -/
def SpinesPos (L : Layout) : Prop :=
  ∀ i < L.spines, 0 < L.spineLenAt i

lemma remaining_pos (L : Layout) (s : StarIter) (hv : ValidState L s)
    (hs : s.currentSpine < L.spines) : 0 < remaining L s := by
  rcases hv with hv | hv
  · omega
  · unfold remaining
    rw [if_pos hs]
    have : 0 < posRemaining L s.currentSpine s.currentPosition
        s.positionOffset := by
      cases h : s.currentPosition <;>
        simp only [posRemaining] <;> rw [h] at hv <;>
        simp only [posLen] at hv <;> omega
    omega

lemma sum_Ico_spineTotal_bot {L : Layout} {i : Nat} (h : i < L.spines) :
    ∑ j in Finset.Ico i L.spines, spineTotal L j
      = spineTotal L i + ∑ j in Finset.Ico (i + 1) L.spines, spineTotal L j :=
  Finset.sum_eq_sum_Ico_succ_bot h _

lemma advance_step (L : Layout) (s : StarIter) (hpos : SpinesPos L)
    (hv : ValidState L s) (hs : s.currentSpine < L.spines) :
    ValidState L (s.advance L) ∧ remaining L (s.advance L) + 1 = remaining L s := by
  have hv2 : s.positionOffset < posLen L s.currentSpine s.currentPosition := by
    rcases hv with hv | hv
    · omega
    · exact hv
  obtain ⟨i, p, off⟩ := s
  simp only at hv2 hs ⊢
  cases p with
  | spineOut =>
    simp only [posLen] at hv2
    simp only [StarIter.advance]
    by_cases hend : L.spineLenAt i ≤ off + 1
    · have hoff : off + 1 = L.spineLenAt i := by omega
      rw [if_pos hend]
      by_cases htip : L.tipLenAt i = 0
      · rw [if_pos htip]
        constructor
        · right
          simp only [posLen]
          omega
        · simp only [remaining, posRemaining, if_pos hs]
          omega
      · rw [if_neg htip]
        constructor
        · right
          simp only [posLen]
          omega
        · simp only [remaining, posRemaining, if_pos hs]
          omega
    · rw [if_neg hend]
      constructor
      · right
        simp only [posLen]
        omega
      · simp only [remaining, posRemaining, if_pos hs]
        omega
  | spineTip =>
    simp only [posLen] at hv2
    simp only [StarIter.advance]
    by_cases hend : L.tipLenAt i ≤ off + 1
    · rw [if_pos hend]
      constructor
      · right
        simp only [posLen]
        exact hpos i hs
      · simp only [remaining, posRemaining, if_pos hs]
        omega
    · rw [if_neg hend]
      constructor
      · right
        simp only [posLen]
        omega
      · simp only [remaining, posRemaining, if_pos hs]
        omega
  | spineBack =>
    simp only [posLen] at hv2
    simp only [StarIter.advance]
    by_cases hend : L.spineLenAt i ≤ off + 1
    · rw [if_pos hend]
      by_cases harc : L.arcLenAt i = 0
      · rw [if_pos harc]
        by_cases hlast : L.spines ≤ i + 1
        · rw [if_pos hlast]
          constructor
          · left
            exact hlast
          · have hempty : Finset.Ico (i + 1) L.spines = ∅ :=
              Finset.Ico_eq_empty (by omega)
            simp only [remaining, posRemaining, if_pos hs, hempty,
              Finset.sum_empty]
            have : ¬ i + 1 < L.spines := by omega
            rw [if_neg this]
            omega
        · rw [if_neg hlast]
          have hnext : i + 1 < L.spines := by omega
          constructor
          · right
            simp only [posLen]
            exact hpos (i + 1) hnext
          · simp only [remaining, posRemaining, if_pos hs, if_pos hnext]
            rw [sum_Ico_spineTotal_bot hnext]
            simp only [spineTotal]
            omega
      · rw [if_neg harc]
        constructor
        · right
          simp only [posLen]
          omega
        · simp only [remaining, posRemaining, if_pos hs]
          omega
    · rw [if_neg hend]
      constructor
      · right
        simp only [posLen]
        omega
      · simp only [remaining, posRemaining, if_pos hs]
        omega
  | arc =>
    simp only [posLen] at hv2
    simp only [StarIter.advance]
    by_cases hend : L.arcLenAt i ≤ off + 1
    · rw [if_pos hend]
      by_cases hlast : L.spines ≤ i + 1
      · rw [if_pos hlast]
        constructor
        · left
          exact hlast
        · have hempty : Finset.Ico (i + 1) L.spines = ∅ :=
            Finset.Ico_eq_empty (by omega)
          simp only [remaining, posRemaining, if_pos hs, hempty,
            Finset.sum_empty]
          have : ¬ i + 1 < L.spines := by omega
          rw [if_neg this]
          omega
      · rw [if_neg hlast]
        have hnext : i + 1 < L.spines := by omega
        constructor
        · right
          simp only [posLen]
          exact hpos (i + 1) hnext
        · simp only [remaining, posRemaining, if_pos hs, if_pos hnext]
          rw [sum_Ico_spineTotal_bot hnext]
          simp only [spineTotal]
          omega
    · rw [if_neg hend]
      constructor
      · right
        simp only [posLen]
        omega
      · simp only [remaining, posRemaining, if_pos hs]
        omega

lemma runIter_length (L : Layout) (P : Pattern) (hpos : SpinesPos L) :
    ∀ (fuel : Nat) (s : StarIter), ValidState L s →
      remaining L s ≤ fuel → (runIter L P fuel s).length = remaining L s := by
  intro fuel
  induction fuel with
  | zero =>
    intro s _ hle
    simp only [runIter, List.length_nil]
    omega
  | succ n ih =>
    intro s hv hle
    by_cases hs : L.spines ≤ s.currentSpine
    · have hrem : remaining L s = 0 := by
        unfold remaining
        rw [if_neg (by omega)]
      simp only [runIter, StarIter.next, if_pos hs, List.length_nil, hrem]
    · push_neg at hs
      obtain ⟨hv2, hrem⟩ := advance_step L s hpos hv hs
      have hposrem := remaining_pos L s hv hs
      simp only [runIter, StarIter.next, if_neg (by omega : ¬ L.spines ≤ s.currentSpine)]
      simp only [List.length_cons]
      rw [ih (s.advance L) hv2 (by omega)]
      omega

lemma remaining_init (L : Layout) :
    remaining L StarIter.init = ∑ j in Finset.range L.spines, spineTotal L j := by
  rw [Finset.range_eq_Ico]
  unfold remaining StarIter.init
  by_cases h : 0 < L.spines
  · simp only [if_pos h, posRemaining]
    rw [sum_Ico_spineTotal_bot h]
    simp only [spineTotal]
    omega
  · have hempty : Finset.Ico 0 L.spines = ∅ := Finset.Ico_eq_empty (by omega)
    simp only [if_neg h, hempty, Finset.sum_empty]

/-- Claim C1: For every `Layout` whose declared LED count equals the sum over
all spines of twice the spine run length plus the tip length plus the arc
length, with every spine run nonempty, the star traversal emits exactly
`Layout.leds` colors and then terminates: running the iterator with any
fuel of at least `leds` calls always yields a list of exactly `leds`
colors (never more, never fewer). -/
theorem star_traversal_emits_exactly_leds (L : Layout) (P : Pattern)
    (hleds : L.leds = ∑ j in Finset.range L.spines, spineTotal L j)
    (hpos : ∀ i < L.spines, 0 < L.spineLenAt i)
    (fuel : Nat) (hfuel : L.leds ≤ fuel) :
    (runIter L P fuel StarIter.init).length = L.leds := by
  have hv : ValidState L StarIter.init := by
    by_cases h : 0 < L.spines
    · right
      simp only [StarIter.init, posLen]
      exact hpos 0 h
    · left
      simp only [StarIter.init]
      omega
  rw [runIter_length L P hpos fuel StarIter.init hv
    (by rw [remaining_init]; omega)]
  rw [remaining_init, hleds]

/-- Witness for C1 at a concrete layout: one spine of length 3, no tip,
a one-LED arc, 7 declared LEDs. -/
theorem star_traversal_emits_exactly_leds_witness :
    (runIter ⟨1, fun _ => 3, fun _ => 0, fun _ => 1, 7⟩
      ⟨fun s l => ⟨s.index, l.index, 255⟩, fun s _ => ⟨s.index, 255, 128⟩,
        fun s l => ⟨s.index, l.index, 64⟩⟩ 7 StarIter.init).length = 7 :=
  star_traversal_emits_exactly_leds _ _ (by decide) (by decide) 7 (by decide)

/-- Claim C2 (code bug): `StarIter::size_hint` returns the layout's total LED
count unconditionally, for every iterator state: the reported remaining
count is never decremented as items are yielded.  Concretely, on the
7-LED layout, after one item has been yielded the iterator still reports 7
remaining although only 6 items remain. -/
theorem star_size_hint_never_decremented :
    (∀ (L : Layout) (s : StarIter), StarIter.sizeHint L s = L.leds)
    ∧ StarIter.sizeHint ⟨1, fun _ => 3, fun _ => 0, fun _ => 1, 7⟩
        (StarIter.advance ⟨1, fun _ => 3, fun _ => 0, fun _ => 1, 7⟩
          StarIter.init) = 7
    ∧ (runIter ⟨1, fun _ => 3, fun _ => 0, fun _ => 1, 7⟩
        ⟨fun s l => ⟨s.index, l.index, 255⟩, fun s _ => ⟨s.index, 255, 128⟩,
          fun s l => ⟨s.index, l.index, 64⟩⟩ 7
        (StarIter.advance ⟨1, fun _ => 3, fun _ => 0, fun _ => 1, 7⟩
          StarIter.init)).length = 6 := by
  refine ⟨fun L s => rfl, by decide, by decide⟩

/-- A single spine of length `n`, no tip, no arc (the C7 configuration). -/
def singleSpine (n : Nat) : Layout :=
  ⟨1, fun _ => n, fun _ => 0, fun _ => 0, 2 * n⟩

lemma runIter_done (L : Layout) (P : Pattern) (fuel : Nat) (s : StarIter)
    (h : L.spines ≤ s.currentSpine) : runIter L P fuel s = [] := by
  cases fuel with
  | zero => rfl
  | succ n => simp only [runIter, StarIter.next, if_pos h]


lemma next_singleSpine_back_last (n : Nat) (P : Pattern) (off : Nat)
    (h : n ≤ off + 1) :
    StarIter.next (singleSpine n) P ⟨0, .spineBack, off⟩
      = some (P.spineColorAt ⟨0, 1⟩ ⟨n - 1 - off, n⟩,
          ⟨1, .spineBack, off + 1⟩) := by
  simp only [StarIter.next, StarIter.advance, singleSpine]
  rw [if_neg (by omega : ¬ (1 : Nat) ≤ 0), if_pos h]
  simp

lemma next_singleSpine_back_mid (n : Nat) (P : Pattern) (off : Nat)
    (h : ¬ n ≤ off + 1) :
    StarIter.next (singleSpine n) P ⟨0, .spineBack, off⟩
      = some (P.spineColorAt ⟨0, 1⟩ ⟨n - 1 - off, n⟩,
          ⟨0, .spineBack, off + 1⟩) := by
  simp only [StarIter.next, StarIter.advance, singleSpine]
  rw [if_neg (by omega : ¬ (1 : Nat) ≤ 0), if_neg h]

lemma next_singleSpine_out_last (n : Nat) (P : Pattern) (off : Nat)
    (h : n ≤ off + 1) :
    StarIter.next (singleSpine n) P ⟨0, .spineOut, off⟩
      = some (P.spineColorAt ⟨0, 1⟩ ⟨off, n⟩, ⟨0, .spineBack, 0⟩) := by
  simp only [StarIter.next, StarIter.advance, singleSpine]
  rw [if_neg (by omega : ¬ (1 : Nat) ≤ 0), if_pos h]
  simp

lemma next_singleSpine_out_mid (n : Nat) (P : Pattern) (off : Nat)
    (h : ¬ n ≤ off + 1) :
    StarIter.next (singleSpine n) P ⟨0, .spineOut, off⟩
      = some (P.spineColorAt ⟨0, 1⟩ ⟨off, n⟩, ⟨0, .spineOut, off + 1⟩) := by
  simp only [StarIter.next, StarIter.advance, singleSpine]
  rw [if_neg (by omega : ¬ (1 : Nat) ≤ 0), if_neg h]

lemma spineColorAt_congr (P : Pattern) (e : Index) (x y t : Nat)
    (h : x = y) : P.spineColorAt e ⟨x, t⟩ = P.spineColorAt e ⟨y, t⟩ := by
  rw [h]

lemma cons_map_range {A : Type} (f : Nat → A) (d : Nat) :
    f 0 :: (List.range d).map (fun k => f (k + 1))
      = (List.range (d + 1)).map f := by
  rw [List.range_succ_eq_map, List.map_cons, List.map_map]
  rfl

lemma runIter_cons (L : Layout) (P : Pattern) (fuel : Nat) (s : StarIter)
    (c : Hsv) (s2 : StarIter) (h : StarIter.next L P s = some (c, s2)) :
    runIter L P (fuel + 1) s = c :: runIter L P fuel s2 := by
  rw [runIter, h]

lemma runIter_singleSpine_back (n : Nat) (P : Pattern) :
    ∀ (d off fuel : Nat), off + d + 1 = n → d + 1 ≤ fuel →
      runIter (singleSpine n) P fuel ⟨0, .spineBack, off⟩
        = (List.range (d + 1)).map
            (fun k => P.spineColorAt ⟨0, 1⟩ ⟨n - 1 - (off + k), n⟩) := by
  intro d
  induction d with
  | zero =>
    intro off fuel hoff hfuel
    obtain ⟨f, rfl⟩ : ∃ f, fuel = f + 1 := ⟨fuel - 1, by omega⟩
    rw [runIter_cons _ _ _ _ _ _ (next_singleSpine_back_last n P off (by omega))]
    rw [runIter_done _ _ _ _ (by simp [singleSpine])]
    rw [(by decide : List.range 1 = [0]), List.map_cons, List.map_nil]
    rfl
  | succ d ih =>
    intro off fuel hoff hfuel
    obtain ⟨f, rfl⟩ : ∃ f, fuel = f + 1 := ⟨fuel - 1, by omega⟩
    have hshift : (List.range (d + 1)).map
        (fun k => P.spineColorAt ⟨0, 1⟩ ⟨n - 1 - (off + 1 + k), n⟩)
      = (List.range (d + 1)).map
        (fun k => P.spineColorAt ⟨0, 1⟩ ⟨n - 1 - (off + (k + 1)), n⟩) := by
      apply List.map_congr_left
      intro a _
      apply spineColorAt_congr
      omega
    rw [runIter_cons _ _ _ _ _ _ (next_singleSpine_back_mid n P off (by omega))]
    rw [ih (off + 1) f (by omega) (by omega)]
    rw [hshift,
      ← cons_map_range (fun k => P.spineColorAt ⟨0, 1⟩ ⟨n - 1 - (off + k), n⟩)
        (d + 1)]
    rfl

lemma runIter_singleSpine_out (n : Nat) (P : Pattern) :
    ∀ (d off fuel : Nat), off + d + 1 = n → (d + 1) + n ≤ fuel →
      runIter (singleSpine n) P fuel ⟨0, .spineOut, off⟩
        = (List.range (d + 1)).map
            (fun k => P.spineColorAt ⟨0, 1⟩ ⟨off + k, n⟩)
          ++ (List.range n).map
            (fun k => P.spineColorAt ⟨0, 1⟩ ⟨n - 1 - k, n⟩) := by
  intro d
  induction d with
  | zero =>
    intro off fuel hoff hfuel
    obtain ⟨f, rfl⟩ : ∃ f, fuel = f + 1 := ⟨fuel - 1, by omega⟩
    have htail : (List.range n).map
        (fun k => P.spineColorAt ⟨0, 1⟩ ⟨n - 1 - (0 + k), n⟩)
      = (List.range n).map
        (fun k => P.spineColorAt ⟨0, 1⟩ ⟨n - 1 - k, n⟩) := by
      apply List.map_congr_left
      intro a _
      apply spineColorAt_congr
      omega
    rw [runIter_cons _ _ _ _ _ _ (next_singleSpine_out_last n P off (by omega))]
    rw [runIter_singleSpine_back n P (n - 1) 0 f (by omega) (by omega)]
    have hn : n - 1 + 1 = n := by omega
    rw [hn, htail, (by decide : List.range 1 = [0]), List.map_cons,
      List.map_nil, List.singleton_append]
    rfl
  | succ d ih =>
    intro off fuel hoff hfuel
    obtain ⟨f, rfl⟩ : ∃ f, fuel = f + 1 := ⟨fuel - 1, by omega⟩
    have hshift : (List.range (d + 1)).map
        (fun k => P.spineColorAt ⟨0, 1⟩ ⟨off + 1 + k, n⟩)
      = (List.range (d + 1)).map
        (fun k => P.spineColorAt ⟨0, 1⟩ ⟨off + (k + 1), n⟩) := by
      apply List.map_congr_left
      intro a _
      apply spineColorAt_congr
      omega
    rw [runIter_cons _ _ _ _ _ _ (next_singleSpine_out_mid n P off (by omega))]
    rw [ih (off + 1) f (by omega) (by omega)]
    rw [hshift,
      ← cons_map_range (fun k => P.spineColorAt ⟨0, 1⟩ ⟨off + k, n⟩) (d + 1),
      List.cons_append]
    rfl

/-- Claim C7: On a single spine of length `n` with no tip and no arc, for any
(pure) pattern: the back run's `j`-th emitted color queries the pattern at
the mirrored position `n - 1 - j`, and consequently the `k`-th out-run
color equals the `(n-1-k)`-th back-run color (list position `n + (n-1-k)`). -/
theorem star_mirroring (n : Nat) (hn : 0 < n) (P : Pattern) (fuel : Nat)
    (hfuel : 2 * n ≤ fuel) :
    (∀ j < n, (runIter (singleSpine n) P fuel StarIter.init)[n + j]?
        = some (P.spineColorAt ⟨0, 1⟩ ⟨n - 1 - j, n⟩))
    ∧ ∀ k < n, (runIter (singleSpine n) P fuel StarIter.init)[k]?
        = (runIter (singleSpine n) P fuel StarIter.init)[n + (n - 1 - k)]? := by
  have hchar := runIter_singleSpine_out n P (n - 1) 0 fuel (by omega)
    (by omega)
  have hinit : (StarIter.init : StarIter) = ⟨0, .spineOut, 0⟩ := rfl
  rw [hinit, hchar]
  have hd : n - 1 + 1 = n := by omega
  rw [hd]
  have hlenA : ((List.range n).map
      (fun k => P.spineColorAt ⟨0, 1⟩ ⟨0 + k, n⟩)).length = n := by
    simp
  have hback : ∀ j < n, ((List.range n).map
      (fun k => P.spineColorAt ⟨0, 1⟩ ⟨0 + k, n⟩)
        ++ (List.range n).map
          (fun k => P.spineColorAt ⟨0, 1⟩ ⟨n - 1 - k, n⟩))[n + j]?
      = some (P.spineColorAt ⟨0, 1⟩ ⟨n - 1 - j, n⟩) := by
    intro j hj
    rw [List.getElem?_append_right (by rw [hlenA]; omega)]
    rw [hlenA]
    have h2 : n + j - n = j := by omega
    rw [h2]
    simp [List.getElem?_map, List.getElem?_range hj]
  refine ⟨hback, ?_⟩
  intro k hk
  rw [hback (n - 1 - k) (by omega)]
  rw [spineColorAt_congr P _ _ _ _ (by omega : n - 1 - (n - 1 - k) = k)]
  rw [List.getElem?_append, if_pos (by simpa using hk)]
  simp only [List.getElem?_map, List.getElem?_range hk, Option.map_some]
  refine congrArg some ?_
  apply spineColorAt_congr
  omega

/-- Source `u8::count_ones`: popcount of a byte, recursing over its 8 bits. -/
def countOnesAux : Nat → Nat → Nat
  | 0, _ => 0
  | fuel + 1, x => x % 2 + countOnesAux fuel (x / 2)

/-- Source `u8::count_ones` (`slotmap.rs` line 90). -/
def countOnes8 (x : Nat) : Nat := countOnesAux 8 x

/-- Low set-bit search over the 8 bits of a byte. -/
def trailingZerosAux : Nat → Nat → Nat
  | 0, _ => 0
  | fuel + 1, x => if x % 2 = 1 then 0 else trailingZerosAux fuel (x / 2) + 1

/-- Source `u8::trailing_zeros` (`slotmap.rs` line 53): 8 for input 0, otherwise
the index of the least-significant set bit. -/
def trailingZeros8 (x : Nat) : Nat :=
  if x = 0 then 8 else trailingZerosAux 8 x

/-- Source `slotmap.rs`: `SlotMap` — backing storage (modelled as a total function
from slot index to value) plus the `u8` occupancy bitset. -/
structure SlotMap (V : Type) (N : Nat) where
  storage : Nat → V
  occupied : Nat

/-- The all-occupied mask computed in `is_full` (`slotmap.rs` lines 78-84). -/
def fullMask (N : Nat) : Nat :=
  if N = 8 then 255 else (1 <<< N) - 1

/-- Source `slotmap.rs` lines 76-86: `is_full`. -/
def SlotMap.isFull {V : Type} {N : Nat} (m : SlotMap V N) : Bool :=
  m.occupied == fullMask N

/-- Source `slotmap.rs` lines 88-91: `len` is `occupied.count_ones()`. -/
def SlotMap.len {V : Type} {N : Nat} (m : SlotMap V N) : Nat :=
  countOnes8 m.occupied

/-- Source `slotmap.rs` lines 43-60: `insert`.  `!self.occupied` on a `u8` is
`255 ^^^ occupied`; the chosen index is `trailing_zeros` of that inverse,
the bit is set and the value stored.  Returns `(index?, updated map)`. -/
def SlotMap.insert {V : Type} {N : Nat} (m : SlotMap V N) (v : V) :
    Option Nat × SlotMap V N :=
  if m.isFull then (none, m)
  else
    let inverted := 255 ^^^ m.occupied
    let index := trailingZeros8 inverted
    (some index,
      ⟨fun k => if k = index then v else m.storage k,
        m.occupied ||| (1 <<< index)⟩)

/-- Source `slotmap.rs` lines 62-67: `remove` clears the occupancy bit
(`occupied &= !(1 << index)`); the stored value is left in place. -/
def SlotMap.remove {V : Type} {N : Nat} (m : SlotMap V N) (index : Nat) :
    SlotMap V N :=
  ⟨m.storage, m.occupied &&& (255 ^^^ (1 <<< index))⟩

/-- Source `slotmap.rs` lines 93-108: `iter` — ascending slot order, keeping the
slots whose occupancy bit is set, then `take(len)`. -/
def SlotMap.toList {V : Type} {N : Nat} (m : SlotMap V N) : List V :=
  ((List.range N).filterMap fun i =>
      if m.occupied.testBit i then some (m.storage i) else none).take m.len

/-- Source `slotmap.rs` lines 129-142: body of the `retain` loop.  `f` returns the
updated value and whether to keep the slot (the source's closure mutates
the value in place and returns `bool`); `remainingSlots` counts the
entry-occupied slots not yet visited and the loop breaks at zero. -/
def retainAux {V : Type} {N : Nat} (f : V → V × Bool) :
    Nat → Nat → Nat → SlotMap V N → SlotMap V N
  | 0, _, _, m => m
  | fuel + 1, i, remainingSlots, m =>
    if remainingSlots = 0 then m
    else if m.occupied.testBit i then
      let p := f (m.storage i)
      let m1 : SlotMap V N :=
        ⟨fun k => if k = i then p.1 else m.storage k,
          if p.2 then m.occupied else m.occupied &&& (255 ^^^ (1 <<< i))⟩
      retainAux f fuel (i + 1) (remainingSlots - 1) m1
    else retainAux f fuel (i + 1) remainingSlots m

/-- Source `slotmap.rs` lines 127-142: `retain`. -/
def SlotMap.retain {V : Type} {N : Nat} (m : SlotMap V N)
    (f : V → V × Bool) : SlotMap V N :=
  retainAux f N 0 m.len m

lemma countOnes8_step : ∀ x < 256, countOnes8 x = x % 2 + countOnes8 (x / 2) := by
  decide

lemma countOnes8_zero_iff : ∀ x < 256, (countOnes8 x = 0 ↔ x = 0) := by
  decide

lemma shiftRight_andNot : ∀ occ < 256, ∀ i < 8,
    (occ &&& (255 ^^^ (1 <<< i))) >>> (i + 1) = occ >>> (i + 1) := by
  decide

lemma countOnes8_shiftRight_true : ∀ occ < 256, ∀ i < 8,
    occ.testBit i = true →
    countOnes8 (occ >>> i) = countOnes8 (occ >>> (i + 1)) + 1 := by
  decide

lemma countOnes8_shiftRight_false : ∀ occ < 256, ∀ i < 8,
    occ.testBit i = false →
    countOnes8 (occ >>> i) = countOnes8 (occ >>> (i + 1)) := by
  decide

lemma testBit_andNot_ne : ∀ occ < 256, ∀ i < 8, ∀ j < 8, j ≠ i →
    (occ &&& (255 ^^^ (1 <<< i))).testBit j = occ.testBit j := by
  decide

lemma testBit_andNot_self : ∀ occ < 256, ∀ i < 8,
    (occ &&& (255 ^^^ (1 <<< i))).testBit i = false := by
  decide

lemma andNot_lt : ∀ occ < 256, ∀ i < 8,
    occ &&& (255 ^^^ (1 <<< i)) ≤ occ := by
  decide

lemma shiftRight_zero_testBit (occ i j : Nat) (hsh : occ >>> i = 0)
    (hij : i ≤ j) : occ.testBit j = false := by
  have h1 : occ.testBit j = (occ >>> i).testBit (j - i) := by
    rw [Nat.testBit_shiftRight]
    congr 1
    omega
  rw [h1, hsh]
  exact Nat.zero_testBit _

lemma testBit_false_of_ge {occ N j : Nat} (hocc : occ < 2 ^ N) (hj : N ≤ j) :
    occ.testBit j = false :=
  Nat.testBit_eq_false_of_lt
    (lt_of_lt_of_le hocc (Nat.pow_le_pow_right (by omega) hj))

lemma retainAux_spec {V : Type} {N : Nat} (hN : N ≤ 8) (f : V → V × Bool) :
    ∀ (fuel i : Nat) (m : SlotMap V N), i + fuel = N → m.occupied < 2 ^ N →
      (∀ j < i,
        (retainAux f fuel i (countOnes8 (m.occupied >>> i)) m).storage j
            = m.storage j
          ∧ (retainAux f fuel i (countOnes8 (m.occupied >>> i)) m).occupied.testBit j
            = m.occupied.testBit j)
      ∧ (∀ j, i ≤ j → j < N →
        (retainAux f fuel i (countOnes8 (m.occupied >>> i)) m).occupied.testBit j
            = (m.occupied.testBit j && (f (m.storage j)).2)
          ∧ (retainAux f fuel i (countOnes8 (m.occupied >>> i)) m).storage j
            = if m.occupied.testBit j then (f (m.storage j)).1 else m.storage j)
      ∧ (retainAux f fuel i (countOnes8 (m.occupied >>> i)) m).occupied < 2 ^ N := by
  intro fuel
  induction fuel with
  | zero =>
    intro i m hiN hocc
    refine ⟨fun j hj => ⟨rfl, rfl⟩, fun j hij hjN => absurd hjN (by omega), hocc⟩
  | succ fuel ih =>
    intro i m hiN hocc
    have hi8 : i < 8 := by omega
    have h256 : (2 : Nat) ^ N ≤ 256 := by
      calc (2 : Nat) ^ N ≤ 2 ^ 8 := Nat.pow_le_pow_right (by omega) hN
      _ = 256 := by norm_num
    have hocc256 : m.occupied < 256 := lt_of_lt_of_le hocc h256
    by_cases hrem : countOnes8 (m.occupied >>> i) = 0
    · have hres : retainAux f (fuel + 1) i (countOnes8 (m.occupied >>> i)) m
          = m := by
        simp only [retainAux]
        rw [if_pos hrem]
      have hsh : m.occupied >>> i = 0 := by
        have hlt : m.occupied >>> i < 256 := by
          have : m.occupied >>> i ≤ m.occupied := by
            rw [Nat.shiftRight_eq_div_pow]
            exact Nat.div_le_self _ _
          omega
        exact (countOnes8_zero_iff _ hlt).1 hrem
      refine ⟨fun j hj => ⟨by rw [hres], by rw [hres]⟩, ?_, by rw [hres]; exact hocc⟩
      intro j hij hjN
      have hb := shiftRight_zero_testBit m.occupied i j hsh hij
      rw [hres, hb]
      exact ⟨rfl, rfl⟩
    · by_cases hbit : m.occupied.testBit i = true
      · cases hp2 : (f (m.storage i)).2
        · -- slot removed
          set m1 : SlotMap V N :=
            ⟨fun k => if k = i then (f (m.storage i)).1 else m.storage k,
              m.occupied &&& (255 ^^^ (1 <<< i))⟩ with hm1def
          have hocceq : m1.occupied = m.occupied &&& (255 ^^^ (1 <<< i)) := by
            rw [hm1def]
          have hres : retainAux f (fuel + 1) i (countOnes8 (m.occupied >>> i)) m
              = retainAux f fuel (i + 1) (countOnes8 (m.occupied >>> i) - 1) m1 := by
            rw [hm1def]
            simp only [retainAux]
            rw [if_neg hrem, if_pos hbit, if_neg (by simp [hp2])]
          have hm1occ : m1.occupied < 2 ^ N := by
            rw [hocceq]
            exact lt_of_le_of_lt (andNot_lt m.occupied hocc256 i hi8) hocc
          have hshift : m1.occupied >>> (i + 1) = m.occupied >>> (i + 1) := by
            rw [hocceq]
            exact shiftRight_andNot m.occupied hocc256 i hi8
          have hcnt : countOnes8 (m.occupied >>> i) - 1
              = countOnes8 (m1.occupied >>> (i + 1)) := by
            rw [hshift]
            have := countOnes8_shiftRight_true m.occupied hocc256 i hi8 hbit
            omega
          obtain ⟨IH1, IH2, IH3⟩ := ih (i + 1) m1 (by omega) hm1occ
          rw [hres, hcnt]
          have hm1s : ∀ j, j ≠ i → m1.storage j = m.storage j := by
            intro j hj
            rw [hm1def]
            exact if_neg hj
          have hm1si : m1.storage i = (f (m.storage i)).1 := by
            rw [hm1def]
            exact if_pos rfl
          have hm1b : ∀ j < 8, j ≠ i →
              m1.occupied.testBit j = m.occupied.testBit j := by
            intro j hj hji
            rw [hocceq]
            exact testBit_andNot_ne m.occupied hocc256 i hi8 j hj hji
          have hm1bi : m1.occupied.testBit i = false := by
            rw [hocceq]
            exact testBit_andNot_self m.occupied hocc256 i hi8
          refine ⟨?_, ?_, IH3⟩
          · intro j hj
            refine ⟨((IH1 j (by omega)).1).trans (hm1s j (by omega)), ?_⟩
            rw [(IH1 j (by omega)).2]
            exact hm1b j (by omega) (by omega)
          · intro j hij hjN
            by_cases hji : j = i
            · subst hji
              constructor
              · rw [(IH1 j (by omega)).2, hm1bi, hbit, hp2]
                rfl
              · rw [(IH1 j (by omega)).1, hm1si, if_pos hbit]
            · have hj8 : j < 8 := by omega
              obtain ⟨hb2, hs2⟩ := IH2 j (by omega) hjN
              constructor
              · rw [hb2, hm1b j hj8 hji, hm1s j hji]
              · rw [hs2, hm1b j hj8 hji, hm1s j hji]
        · -- slot kept
          set m1 : SlotMap V N :=
            ⟨fun k => if k = i then (f (m.storage i)).1 else m.storage k,
              m.occupied⟩ with hm1def
          have hocceq : m1.occupied = m.occupied := by rw [hm1def]
          have hres : retainAux f (fuel + 1) i (countOnes8 (m.occupied >>> i)) m
              = retainAux f fuel (i + 1) (countOnes8 (m.occupied >>> i) - 1) m1 := by
            rw [hm1def]
            simp only [retainAux]
            rw [if_neg hrem, if_pos hbit, if_pos hp2]
          have hm1occ : m1.occupied < 2 ^ N := by
            rw [hocceq]
            exact hocc
          have hcnt : countOnes8 (m.occupied >>> i) - 1
              = countOnes8 (m1.occupied >>> (i + 1)) := by
            rw [hocceq]
            have := countOnes8_shiftRight_true m.occupied hocc256 i hi8 hbit
            omega
          obtain ⟨IH1, IH2, IH3⟩ := ih (i + 1) m1 (by omega) hm1occ
          rw [hres, hcnt]
          have hm1s : ∀ j, j ≠ i → m1.storage j = m.storage j := by
            intro j hj
            rw [hm1def]
            exact if_neg hj
          have hm1si : m1.storage i = (f (m.storage i)).1 := by
            rw [hm1def]
            exact if_pos rfl
          refine ⟨?_, ?_, IH3⟩
          · intro j hj
            refine ⟨((IH1 j (by omega)).1).trans (hm1s j (by omega)), ?_⟩
            rw [(IH1 j (by omega)).2, hocceq]
          · intro j hij hjN
            by_cases hji : j = i
            · subst hji
              constructor
              · rw [(IH1 j (by omega)).2, hocceq, hbit, hp2]
                rfl
              · rw [(IH1 j (by omega)).1, hm1si, if_pos hbit]
            · obtain ⟨hb2, hs2⟩ := IH2 j (by omega) hjN
              constructor
              · rw [hb2, hocceq, hm1s j hji]
              · rw [hs2, hocceq, hm1s j hji]
      · have hbitf : m.occupied.testBit i = false := by
          revert hbit
          cases m.occupied.testBit i <;> simp
        have hres : retainAux f (fuel + 1) i (countOnes8 (m.occupied >>> i)) m
            = retainAux f fuel (i + 1) (countOnes8 (m.occupied >>> i)) m := by
          simp only [retainAux]
          rw [if_neg hrem, if_neg hbit]
        have hcnt : countOnes8 (m.occupied >>> i)
            = countOnes8 (m.occupied >>> (i + 1)) :=
          countOnes8_shiftRight_false m.occupied hocc256 i hi8 hbitf
        obtain ⟨IH1, IH2, IH3⟩ := ih (i + 1) m (by omega) hocc
        rw [hres, hcnt]
        refine ⟨?_, ?_, IH3⟩
        · intro j hj
          exact IH1 j (by omega)
        · intro j hij hjN
          by_cases hji : j = i
          · subst hji
            constructor
            · rw [(IH1 j (by omega)).2, hbitf]
              rfl
            · rw [(IH1 j (by omega)).1, hbitf]
              simp
          · exact IH2 j (by omega) hjN

lemma retain_spec {V : Type} {N : Nat} (hN : N ≤ 8) (m : SlotMap V N)
    (f : V → V × Bool) (hocc : m.occupied < 2 ^ N) :
    (∀ j < N,
      (m.retain f).occupied.testBit j
          = (m.occupied.testBit j && (f (m.storage j)).2)
        ∧ (m.retain f).storage j
          = if m.occupied.testBit j then (f (m.storage j)).1 else m.storage j)
    ∧ (m.retain f).occupied < 2 ^ N := by
  have h := retainAux_spec hN f N 0 m (by omega) hocc
  rw [Nat.shiftRight_zero] at h
  have hretain : m.retain f = retainAux f N 0 (countOnes8 m.occupied) m := rfl
  rw [hretain]
  exact ⟨fun j hj => h.2.1 j (by omega) hj, h.2.2⟩

lemma full_iff_count : ∀ N < 9, ∀ occ < 256, occ < 2 ^ N →
    (occ = fullMask N ↔ countOnes8 occ = N) := by
  decide

lemma insert_tz_lt : ∀ N < 9, ∀ occ < 256, occ < 2 ^ N →
    occ ≠ fullMask N → trailingZeros8 (255 ^^^ occ) < N := by
  decide

lemma insert_tz_free : ∀ N < 9, ∀ occ < 256, occ < 2 ^ N →
    occ ≠ fullMask N →
    occ.testBit (trailingZeros8 (255 ^^^ occ)) = false := by
  decide

lemma insert_tz_lowest : ∀ N < 9, ∀ occ < 256, occ < 2 ^ N →
    occ ≠ fullMask N →
    ∀ k < trailingZeros8 (255 ^^^ occ), occ.testBit k = true := by
  decide

lemma insert_bit_set : ∀ N < 9, ∀ occ < 256, occ < 2 ^ N →
    occ ≠ fullMask N →
    (occ ||| (1 <<< trailingZeros8 (255 ^^^ occ))).testBit
      (trailingZeros8 (255 ^^^ occ)) = true := by
  decide

lemma insert_bit_other : ∀ occ < 256, ∀ k < 8,
    k = trailingZeros8 (255 ^^^ occ) ∨
      (occ ||| (1 <<< trailingZeros8 (255 ^^^ occ))).testBit k
        = occ.testBit k := by
  decide

lemma insert_occ_lt : ∀ N < 9, ∀ occ < 256, occ < 2 ^ N →
    occ ≠ fullMask N →
    (occ ||| (1 <<< trailingZeros8 (255 ^^^ occ))) < 2 ^ N := by
  decide

lemma insert_count : ∀ N < 9, ∀ occ < 256, occ < 2 ^ N →
    occ ≠ fullMask N →
    countOnes8 (occ ||| (1 <<< trailingZeros8 (255 ^^^ occ)))
      = countOnes8 occ + 1 := by
  decide

lemma remove_not_full : ∀ N < 9, ∀ occ < 256, occ < 2 ^ N → ∀ j < N,
    (occ &&& (255 ^^^ (1 <<< j))) ≠ fullMask N := by
  decide

lemma remove_insert_tz : ∀ N < 9, ∀ occ < 256, occ < 2 ^ N → ∀ j < N,
    (∀ k < j, occ.testBit k = true) →
    trailingZeros8 (255 ^^^ (occ &&& (255 ^^^ (1 <<< j)))) = j := by
  decide

/-- Claim C6: For every slot-allocator state satisfying the bitset invariant
(occupancy bits confined to the `N ≤ 8` slots): `insert` fails (returns no
index) exactly when the occupancy count equals the capacity `N`, leaving
the map unchanged; otherwise it returns the lowest unoccupied index `j`
(every lower slot occupied), marks exactly that bit occupied, stores the
value at `j`, leaves all other slots untouched, and increments the
occupancy count.  Moreover after removing a slot `j` whose lower slots are
all occupied (so `j` is the lowest free index of the result), the next
insert returns `j` again. -/
theorem slotMap_insert_spec {V : Type} (N : Nat) (hN : N ≤ 8)
    (m : SlotMap V N) (v : V) (hInv : m.occupied < 2 ^ N) :
    (m.len = N → (m.insert v).1 = none ∧ (m.insert v).2 = m)
    ∧ (m.len ≠ N →
        ∃ j, (m.insert v).1 = some j
          ∧ j < N
          ∧ m.occupied.testBit j = false
          ∧ (∀ k < j, m.occupied.testBit k = true)
          ∧ (m.insert v).2.occupied.testBit j = true
          ∧ (∀ k < N, k ≠ j →
              (m.insert v).2.occupied.testBit k = m.occupied.testBit k)
          ∧ (m.insert v).2.storage j = v
          ∧ (∀ k, k ≠ j → (m.insert v).2.storage k = m.storage k)
          ∧ (m.insert v).2.len = m.len + 1)
    ∧ (∀ j < N, (∀ k < j, m.occupied.testBit k = true) →
        ((m.remove j).insert v).1 = some j) := by
  have h256 : (2 : Nat) ^ N ≤ 256 := by
    calc (2 : Nat) ^ N ≤ 2 ^ 8 := Nat.pow_le_pow_right (by omega) hN
    _ = 256 := by norm_num
  have hocc256 : m.occupied < 256 := lt_of_lt_of_le hInv h256
  have hcount := full_iff_count N (by omega) m.occupied hocc256 hInv
  refine ⟨?_, ?_, ?_⟩
  · intro hlen
    have hfull : m.isFull = true := by
      simp only [SlotMap.isFull, beq_iff_eq]
      exact hcount.2 hlen
    constructor
    · simp only [SlotMap.insert, hfull, if_true]
    · simp only [SlotMap.insert, hfull, if_true]
  · intro hlen
    have hneq : m.occupied ≠ fullMask N := fun h => hlen (hcount.1 h)
    have hfull : m.isFull = false := by
      simp only [SlotMap.isFull]
      exact beq_eq_false_iff_ne.2 hneq
    have hjN := insert_tz_lt N (by omega) m.occupied hocc256 hInv hneq
    have hbitj := insert_tz_free N (by omega) m.occupied hocc256 hInv hneq
    have hlow := insert_tz_lowest N (by omega) m.occupied hocc256 hInv hneq
    have hbitset := insert_bit_set N (by omega) m.occupied hocc256 hInv hneq
    have hother := insert_bit_other m.occupied hocc256
    have hcnt := insert_count N (by omega) m.occupied hocc256 hInv hneq
    have hins : m.insert v
        = (some (trailingZeros8 (255 ^^^ m.occupied)),
            ⟨fun k => if k = trailingZeros8 (255 ^^^ m.occupied) then v
                else m.storage k,
              m.occupied ||| (1 <<< trailingZeros8 (255 ^^^ m.occupied))⟩) := by
      simp only [SlotMap.insert, hfull, Bool.false_eq_true, if_false]
    refine ⟨trailingZeros8 (255 ^^^ m.occupied), ?_, hjN, hbitj, hlow, ?_,
      ?_, ?_, ?_, ?_⟩
    · rw [hins]
    · rw [hins]
      exact hbitset
    · intro k hk hkj
      rw [hins]
      exact (hother k (by omega)).resolve_left hkj
    · rw [hins]
      exact if_pos rfl
    · intro k hk
      rw [hins]
      exact if_neg hk
    · rw [hins]
      simp only [SlotMap.len]
      exact hcnt
  · intro j hj hlow
    have hne := remove_not_full N (by omega) m.occupied hocc256 hInv j hj
    have htz :=
      remove_insert_tz N (by omega) m.occupied hocc256 hInv j hj hlow
    have hfull : (m.remove j).isFull = false := by
      simp only [SlotMap.isFull, SlotMap.remove]
      exact beq_eq_false_iff_ne.2 hne
    have hremocc : (m.remove j).occupied
        = m.occupied &&& (255 ^^^ (1 <<< j)) := rfl
    simp only [SlotMap.insert, hfull, Bool.false_eq_true, if_false,
      hremocc, htz]

/-- Witness for C6 on a concrete 4-slot map with slots 0 and 2 occupied. -/
theorem slotMap_insert_spec_witness :
    (((⟨fun _ => 0, 5⟩ : SlotMap Nat 4).len = 4 →
        ((⟨fun _ => 0, 5⟩ : SlotMap Nat 4).insert 42).1 = none
        ∧ ((⟨fun _ => 0, 5⟩ : SlotMap Nat 4).insert 42).2
            = (⟨fun _ => 0, 5⟩ : SlotMap Nat 4))
    ∧ ((⟨fun _ => 0, 5⟩ : SlotMap Nat 4).len ≠ 4 →
        ∃ j, ((⟨fun _ => 0, 5⟩ : SlotMap Nat 4).insert 42).1 = some j
          ∧ j < 4
          ∧ (5 : Nat).testBit j = false
          ∧ (∀ k < j, (5 : Nat).testBit k = true)
          ∧ ((⟨fun _ => 0, 5⟩ : SlotMap Nat 4).insert 42).2.occupied.testBit j
              = true
          ∧ (∀ k < 4, k ≠ j →
              ((⟨fun _ => 0, 5⟩ : SlotMap Nat 4).insert 42).2.occupied.testBit k
                = (5 : Nat).testBit k)
          ∧ ((⟨fun _ => 0, 5⟩ : SlotMap Nat 4).insert 42).2.storage j = 42
          ∧ (∀ k, k ≠ j →
              ((⟨fun _ => 0, 5⟩ : SlotMap Nat 4).insert 42).2.storage k
                = (fun _ => 0 : Nat → Nat) k)
          ∧ ((⟨fun _ => 0, 5⟩ : SlotMap Nat 4).insert 42).2.len
              = (⟨fun _ => 0, 5⟩ : SlotMap Nat 4).len + 1)
    ∧ (∀ j < 4, (∀ k < j, (5 : Nat).testBit k = true) →
        (((⟨fun _ => 0, 5⟩ : SlotMap Nat 4).remove j).insert 42).1 = some j)) :=
  slotMap_insert_spec 4 (by decide) ⟨fun _ => 0, 5⟩ 42 (by decide)

/-- Witness for C7 at a single spine of length 3. -/
theorem star_mirroring_witness :
    (∀ j < 3, (runIter (singleSpine 3)
        ⟨fun s l => ⟨s.index, l.index, 255⟩, fun s _ => ⟨s.index, 255, 128⟩,
          fun s l => ⟨s.index, l.index, 64⟩⟩ 6 StarIter.init)[3 + j]?
      = some ((⟨fun s l => ⟨s.index, l.index, 255⟩,
          fun s _ => ⟨s.index, 255, 128⟩,
          fun s l => ⟨s.index, l.index, 64⟩⟩ : Pattern).spineColorAt ⟨0, 1⟩
            ⟨3 - 1 - j, 3⟩))
    ∧ ∀ k < 3, (runIter (singleSpine 3)
        ⟨fun s l => ⟨s.index, l.index, 255⟩, fun s _ => ⟨s.index, 255, 128⟩,
          fun s l => ⟨s.index, l.index, 64⟩⟩ 6 StarIter.init)[k]?
      = (runIter (singleSpine 3)
        ⟨fun s l => ⟨s.index, l.index, 255⟩, fun s _ => ⟨s.index, 255, 128⟩,
          fun s l => ⟨s.index, l.index, 64⟩⟩ 6 StarIter.init)[3 + (3 - 1 - k)]? :=
  star_mirroring 3 (by decide) _ 6 (by decide)

/-- Interpret an `i8` as its unsigned byte reinterpretation (`value as u8`,
two's complement). -/
def toU8 (v : Int) : Nat := (v % 256).toNat

/-- Source `streak.rs` lines 77-82: `map_i8_to_5bit` —
`((value as u8).wrapping_add(128) >> 3).min(31)`. -/
def map_i8_to_5bit (v : Int) : Nat := min (((toU8 v + 128) % 256) >>> 3) 31

/-- Source `streak.rs` lines 84-89: `map_i8_to_3bit` —
`((value as u8).wrapping_add(128) >> 5).min(7)`. -/
def map_i8_to_3bit (v : Int) : Nat := min (((toU8 v + 128) % 256) >>> 5) 7

/-- Source `streak.rs` lines 91-99: `velocity_to_multiplier` — `1 + velocity*3/7`,
mapping the 3-bit code to a 7.1 fixed-point per-tick increment in 1..4. -/
def velocity_to_multiplier (velocity3bit : Nat) : Nat :=
  1 + velocity3bit * 3 / 7

/-- Source `streak.rs` lines 4-10: the 2-byte bit-packed streak state.
Byte 0 is the 7.1 fixed-point head position; byte 1 packs the 5-bit
length above the 3-bit velocity code. -/
structure StreakState where
  data0 : Nat
  data1 : Nat
deriving DecidableEq, Repr

/-- Source `streak.rs` lines 26-37: `StreakState::new` — position 0,
byte 1 `(length << 3) | (velocity & 0x07)`. -/
def StreakState.new (length velocity : Nat) : StreakState :=
  ⟨0, (length <<< 3) ||| (velocity &&& 7)⟩

/-- Source `streak.rs` lines 51-54: integer part of the 7.1 position. -/
def StreakState.position (s : StreakState) : Nat := s.data0 >>> 1

/-- Source `streak.rs` lines 57-61: the 5-bit length. -/
def StreakState.length (s : StreakState) : Nat := s.data1 >>> 3

/-- Source `streak.rs` lines 63-67: the 3-bit velocity code. -/
def StreakState.velocityMultiplier (s : StreakState) : Nat := s.data1 &&& 7

/-- Source `streak.rs` lines 69-74: `StreakState::tick` — saturating `u8` add of
the velocity increment to the fixed-point position. -/
def StreakState.tick (s : StreakState) : StreakState :=
  ⟨min (s.data0 + velocity_to_multiplier s.velocityMultiplier) 255, s.data1⟩

/-- Source `streak.rs` lines 249-286: the loop of `calculate_streak_brightness`
over the live streaks in slot order; `acc` is `max_brightness`. -/
def calculate_streak_brightness_loop (streaks : List StreakState)
    (led : Nat) (acc : Nat) : Nat :=
  match streaks with
  | [] => acc
  | s :: rest =>
    let headPos := s.position
    let length := s.length
    if headPos = led then 255
    else if headPos < led then
      calculate_streak_brightness_loop rest led acc
    else
      let distance := headPos - led
      if length < distance then
        calculate_streak_brightness_loop rest led acc
      else
        calculate_streak_brightness_loop rest led
          (max acc ((length - distance) * 255 / length))

/-- Source `streak.rs` lines 249-286: `calculate_streak_brightness`. -/
def calculate_streak_brightness (streaks : List StreakState)
    (led : Index) : Nat :=
  calculate_streak_brightness_loop streaks led.index 0

/-- Source `streak.rs` lines 243-247: `calculate_streak_color` — the streak
brightness replaces the value channel, hue and saturation pass through. -/
def calculate_streak_color (streaks : List StreakState) (color : Hsv)
    (led : Index) : Hsv :=
  ⟨color.h, color.s, calculate_streak_brightness streaks led⟩

/-- Source `streak.rs` lines 217-231: the `Pattern` impl of `StreakSpawner` — all
three queries overlay the streak brightness on the inner pattern's color;
the live streaks are read from the slot map in ascending slot order. -/
def StreakSpawner.pattern (streaks : SlotMap StreakState 8)
    (inner : Pattern) : Pattern :=
  ⟨fun spine led =>
      calculate_streak_color streaks.toList (inner.spineColorAt spine led) led,
    fun spine led =>
      calculate_streak_color streaks.toList
        (inner.spineTipColorAt spine led) led,
    fun arc led =>
      calculate_streak_color streaks.toList (inner.arcColorAt arc led) led⟩

/-- Source `streak.rs` lines 192-203: the spawn phase of `StreakSpawner::tick`,
with each oscillator abstracted by the Signal it reads on this tick. -/
def spawnPhase (spawnV lengthV velocityV : Int)
    (streaks : SlotMap StreakState 8) : SlotMap StreakState 8 :=
  if spawnV > 0 ∧ streaks.isFull = false then
    if 0 < map_i8_to_5bit lengthV then
      (streaks.insert (StreakState.new (map_i8_to_5bit lengthV)
        (map_i8_to_3bit velocityV))).2
    else streaks
  else streaks

/-- Source `streak.rs` lines 205-214: per-streak advance-and-cull step: the
streak ticks, and is kept while `position.saturating_sub(length)` is still
below the sampled total LED count (`total_leds.get() as u8`). -/
def cullKeep (totalLeds : Nat) (s : StreakState) : StreakState × Bool :=
  (s.tick, decide (s.tick.position - s.tick.length < totalLeds))

/-- Source `streak.rs` lines 183-214: the effect of `StreakSpawner::tick` on the
slot map (spawn phase, then `retain` with advance-and-cull), oscillators
abstracted by their sampled Signals. -/
def StreakSpawner.tickStreaks (spawnV lengthV velocityV totalLedsV : Int)
    (streaks : SlotMap StreakState 8) : SlotMap StreakState 8 :=
  (spawnPhase spawnV lengthV velocityV streaks).retain
    (cullKeep (toU8 totalLedsV))

/-- The brightness rule as the specification words it: 255 when the LED
sits at some live streak's integer head; otherwise the maximum, over the
streaks whose head is at or ahead of the LED within `length` positions, of
`(length - distance) * 255 / length`; 0 when no streak covers the LED. -/
def specStreakValue (streaks : List StreakState) (led : Nat) : Nat :=
  if streaks.any (fun s => s.position == led) then 255
  else
    ((streaks.filter (fun s =>
        decide (led ≤ s.position ∧ s.position - led ≤ s.length))).map
      (fun s => (s.length - (s.position - led)) * 255 / s.length)).foldr
      Nat.max 0

lemma brightness_loop_spec (led : Nat) :
    ∀ (streaks : List StreakState) (acc : Nat),
      calculate_streak_brightness_loop streaks led acc
        = if streaks.any (fun s => s.position == led) then 255
          else max acc
            (((streaks.filter (fun s =>
                decide (led ≤ s.position ∧ s.position - led ≤ s.length))).map
              (fun s => (s.length - (s.position - led)) * 255 / s.length)).foldr
              Nat.max 0) := by
  intro streaks
  induction streaks with
  | nil =>
    intro acc
    simp [calculate_streak_brightness_loop]
  | cons s rest ih =>
    intro acc
    by_cases hhead : s.position = led
    · simp only [calculate_streak_brightness_loop, if_pos hhead,
        List.any_cons]
      rw [if_pos (by simp [hhead])]
    · have hne : (s.position == led) = false := by
        simp [hhead]
      by_cases hlt : s.position < led
      · have hfilt : (decide (led ≤ s.position ∧ s.position - led ≤ s.length))
            = false := by
          simp
          omega
        simp only [calculate_streak_brightness_loop, if_neg hhead,
          if_pos hlt, List.any_cons, hne, Bool.false_or, List.filter_cons,
          hfilt, Bool.false_eq_true, if_false]
        exact ih acc
      · by_cases hcov : s.length < s.position - led
        · have hfilt : (decide (led ≤ s.position ∧ s.position - led ≤ s.length))
              = false := by
            simp
            omega
          simp only [calculate_streak_brightness_loop, if_neg hhead,
            if_neg hlt, if_pos hcov, List.any_cons, hne, Bool.false_or,
            List.filter_cons, hfilt, Bool.false_eq_true, if_false]
          exact ih acc
        · have hfilt : (decide (led ≤ s.position ∧ s.position - led ≤ s.length))
              = true := by
            simp
            omega
          simp only [calculate_streak_brightness_loop, if_neg hhead,
            if_neg hlt, if_neg hcov, List.any_cons, hne, Bool.false_or,
            List.filter_cons, hfilt, if_true, List.map_cons, List.foldr_cons]
          rw [ih (max acc ((s.length - (s.position - led)) * 255 / s.length))]
          by_cases hany : rest.any (fun t => t.position == led)
          · rw [if_pos hany, if_pos hany]
          · rw [if_neg hany, if_neg hany]
            exact Nat.max_assoc _ _ _

/-- Claim C3: For every list of live streaks and every queried LED: the
color produced by the streak overlay keeps the inner color's hue and
saturation and replaces its value channel with the spec's brightness
rule — 255 at an exact integer head position, else the maximum of the
linear falloff `(length - distance) * 255 / length` over the streaks whose
head is at or ahead of the LED within `length` positions, else 0. -/
theorem streak_brightness_spec (streaks : List StreakState) (c : Hsv)
    (led : Index) (_hlen : ∀ s ∈ streaks, 0 < s.length) :
    calculate_streak_color streaks c led
      = ⟨c.h, c.s, specStreakValue streaks led.index⟩ := by
  unfold calculate_streak_color calculate_streak_brightness
  congr 1
  rw [brightness_loop_spec led.index streaks 0]
  unfold specStreakValue
  by_cases hany : streaks.any (fun s => s.position == led.index)
  · rw [if_pos hany, if_pos hany]
  · rw [if_neg hany, if_neg hany]
    exact Nat.zero_max _

/-- Witness for C3: one live streak at head 5 with length 3 queried at
LED 4 (distance 1, brightness 170). -/
theorem streak_brightness_spec_witness :
    calculate_streak_color [⟨10, 26⟩] ⟨7, 9, 11⟩ ⟨4, 8⟩
      = ⟨7, 9, specStreakValue [⟨10, 26⟩] 4⟩ :=
  streak_brightness_spec [⟨10, 26⟩] ⟨7, 9, 11⟩ ⟨4, 8⟩ (by decide)

/-- Claim C10: The streak overlay ignores which entity is queried and which
query is used: for every spawner state and inner pattern, the value
channel produced by `spine_color_at`, `spine_tip_color_at` and
`arc_color_at` is the same streak brightness, determined by the
within-entity LED index alone, for arbitrary (and arbitrarily different)
spine/tip/arc entity indices. -/
theorem streak_overlay_entity_independent (streaks : SlotMap StreakState 8)
    (inner : Pattern) (e1 e2 e3 : Index) (led : Index) :
    ((StreakSpawner.pattern streaks inner).spineColorAt e1 led).v
        = calculate_streak_brightness_loop streaks.toList led.index 0
    ∧ ((StreakSpawner.pattern streaks inner).spineTipColorAt e2 led).v
        = calculate_streak_brightness_loop streaks.toList led.index 0
    ∧ ((StreakSpawner.pattern streaks inner).arcColorAt e3 led).v
        = calculate_streak_brightness_loop streaks.toList led.index 0 :=
  ⟨rfl, rfl, rfl⟩

lemma new_length : ∀ l < 32, ∀ v < 8, (StreakState.new l v).length = l := by
  decide

lemma tick_length (s : StreakState) : s.tick.length = s.length := rfl

lemma map5_lt : ∀ v : Int, map_i8_to_5bit v < 32 :=
  fun _ => Nat.lt_succ_of_le (Nat.min_le_right _ 31)

lemma map3_lt : ∀ v : Int, map_i8_to_3bit v < 8 :=
  fun _ => Nat.lt_succ_of_le (Nat.min_le_right _ 7)

lemma spawnPhase_isFull_case (spawnV lengthV velocityV : Int)
    (m : SlotMap StreakState 8)
    (h : spawnV > 0 ∧ m.isFull = false ∧ 0 < map_i8_to_5bit lengthV) :
    spawnPhase spawnV lengthV velocityV m
      = (m.insert (StreakState.new (map_i8_to_5bit lengthV)
          (map_i8_to_3bit velocityV))).2 := by
  unfold spawnPhase
  rw [if_pos ⟨h.1, h.2.1⟩, if_pos h.2.2]

lemma spawnPhase_skip_case (spawnV lengthV velocityV : Int)
    (m : SlotMap StreakState 8)
    (h : ¬(spawnV > 0 ∧ m.isFull = false ∧ 0 < map_i8_to_5bit lengthV)) :
    spawnPhase spawnV lengthV velocityV m = m := by
  unfold spawnPhase
  by_cases h1 : spawnV > 0 ∧ m.isFull = false
  · rw [if_pos h1, if_neg (fun h2 => h ⟨h1.1, h1.2, h2⟩)]
  · rw [if_neg h1]

lemma spawnPhase_occupied_lt (spawnV lengthV velocityV : Int)
    (m : SlotMap StreakState 8) (hInv : m.occupied < 256) :
    (spawnPhase spawnV lengthV velocityV m).occupied < 256 := by
  by_cases h : spawnV > 0 ∧ m.isFull = false ∧ 0 < map_i8_to_5bit lengthV
  · rw [spawnPhase_isFull_case spawnV lengthV velocityV m h]
    have hneq : m.occupied ≠ fullMask 8 := by
      have := h.2.1
      simp only [SlotMap.isFull] at this
      exact beq_eq_false_iff_ne.1 this
    have hfull : m.isFull = false := h.2.1
    simp only [SlotMap.insert, hfull, Bool.false_eq_true, if_false]
    exact insert_occ_lt 8 (by omega) m.occupied hInv hInv hneq
  · rw [spawnPhase_skip_case spawnV lengthV velocityV m h]
    exact hInv

/-- Claim C5: On a spawner tick (oscillators abstracted by their sampled
Signals), a new streak is stored exactly when the spawn Signal is
strictly positive, the allocator is not full, and the 5-bit quantized
length is nonzero: in that case occupancy grows by one and the freshly
stored streak is `StreakState::new` of the quantized length and velocity,
with positive length; in every other case the map is unchanged (no slot
consumed).  Consequently the all-live-streaks-have-positive-length
invariant is preserved by the full tick. -/
theorem streak_spawn_iff (spawnV lengthV velocityV totalLedsV : Int)
    (m : SlotMap StreakState 8) (hInv : m.occupied < 256) :
    ((spawnV > 0 ∧ m.isFull = false ∧ 0 < map_i8_to_5bit lengthV) →
      (spawnPhase spawnV lengthV velocityV m).len = m.len + 1
      ∧ ∃ j < 8, m.occupied.testBit j = false
          ∧ (spawnPhase spawnV lengthV velocityV m).occupied.testBit j = true
          ∧ (spawnPhase spawnV lengthV velocityV m).storage j
              = StreakState.new (map_i8_to_5bit lengthV)
                  (map_i8_to_3bit velocityV)
          ∧ 0 < ((spawnPhase spawnV lengthV velocityV m).storage j).length)
    ∧ (¬(spawnV > 0 ∧ m.isFull = false ∧ 0 < map_i8_to_5bit lengthV) →
        spawnPhase spawnV lengthV velocityV m = m)
    ∧ ((∀ j < 8, m.occupied.testBit j = true → 0 < (m.storage j).length) →
        ∀ j < 8,
          (StreakSpawner.tickStreaks spawnV lengthV velocityV totalLedsV
              m).occupied.testBit j = true →
          0 < ((StreakSpawner.tickStreaks spawnV lengthV velocityV totalLedsV
              m).storage j).length) := by
  refine ⟨?_, spawnPhase_skip_case spawnV lengthV velocityV m, ?_⟩
  · intro h
    have hfull : m.isFull = false := h.2.1
    have hneq : m.occupied ≠ fullMask 8 := by
      simp only [SlotMap.isFull] at hfull
      exact beq_eq_false_iff_ne.1 hfull
    rw [spawnPhase_isFull_case spawnV lengthV velocityV m h]
    have hins : m.insert (StreakState.new (map_i8_to_5bit lengthV)
        (map_i8_to_3bit velocityV))
        = (some (trailingZeros8 (255 ^^^ m.occupied)),
            ⟨fun k => if k = trailingZeros8 (255 ^^^ m.occupied) then
                StreakState.new (map_i8_to_5bit lengthV)
                  (map_i8_to_3bit velocityV)
              else m.storage k,
              m.occupied ||| (1 <<< trailingZeros8 (255 ^^^ m.occupied))⟩) := by
      simp only [SlotMap.insert, hfull, Bool.false_eq_true, if_false]
    rw [hins]
    have hnewlen : (StreakState.new (map_i8_to_5bit lengthV)
        (map_i8_to_3bit velocityV)).length = map_i8_to_5bit lengthV :=
      new_length _ (map5_lt lengthV) _ (map3_lt velocityV)
    refine ⟨?_, trailingZeros8 (255 ^^^ m.occupied),
      insert_tz_lt 8 (by omega) m.occupied hInv hInv hneq,
      insert_tz_free 8 (by omega) m.occupied hInv hInv hneq,
      insert_bit_set 8 (by omega) m.occupied hInv hInv hneq,
      if_pos rfl, ?_⟩
    · simp only [SlotMap.len]
      exact insert_count 8 (by omega) m.occupied hInv hInv hneq
    · simpa [hnewlen] using h.2.2
  · intro hpos j hj hbit
    have hm1occ : (spawnPhase spawnV lengthV velocityV m).occupied < 256 :=
      spawnPhase_occupied_lt spawnV lengthV velocityV m hInv
    have hm1pos : ∀ k < 8,
        (spawnPhase spawnV lengthV velocityV m).occupied.testBit k = true →
        0 < ((spawnPhase spawnV lengthV velocityV m).storage k).length := by
      by_cases h : spawnV > 0 ∧ m.isFull = false ∧ 0 < map_i8_to_5bit lengthV
      · have hfull : m.isFull = false := h.2.1
        have hneq : m.occupied ≠ fullMask 8 := by
          simp only [SlotMap.isFull] at hfull
          exact beq_eq_false_iff_ne.1 hfull
        rw [spawnPhase_isFull_case spawnV lengthV velocityV m h]
        simp only [SlotMap.insert, hfull, Bool.false_eq_true, if_false]
        intro k hk hkbit
        by_cases hkj : k = trailingZeros8 (255 ^^^ m.occupied)
        · subst hkj
          rw [if_pos rfl,
            new_length _ (map5_lt lengthV) _ (map3_lt velocityV)]
          exact h.2.2
        · rw [if_neg hkj]
          apply hpos k hk
          rw [← (insert_bit_other m.occupied hInv k hk).resolve_left hkj]
          exact hkbit
      · rw [spawnPhase_skip_case spawnV lengthV velocityV m h]
        exact hpos
    obtain ⟨hspec, _⟩ := retain_spec (le_refl 8)
      (spawnPhase spawnV lengthV velocityV m) (cullKeep (toU8 totalLedsV))
      hm1occ
    obtain ⟨hb, hs⟩ := hspec j hj
    have hbit2 := hbit
    unfold StreakSpawner.tickStreaks at hbit2 ⊢
    rw [hb] at hbit2
    have hm1bit : (spawnPhase spawnV lengthV velocityV m).occupied.testBit j
        = true := by
      cases hx : (spawnPhase spawnV lengthV velocityV m).occupied.testBit j
      · rw [hx] at hbit2
        simp at hbit2
      · rfl
    rw [hs, if_pos hm1bit]
    have : (cullKeep (toU8 totalLedsV)
        ((spawnPhase spawnV lengthV velocityV m).storage j)).1
        = ((spawnPhase spawnV lengthV velocityV m).storage j).tick := rfl
    rw [this, tick_length]
    exact hm1pos j hj hm1bit

/-- Witness for C5: spawning into an empty map with Signals (1, 0, 0)
stores one streak (occupancy 0 to 1). -/
theorem streak_spawn_iff_witness :
    (spawnPhase 1 0 0 (⟨fun _ => ⟨0, 0⟩, 0⟩ : SlotMap StreakState 8)).len
      = (⟨fun _ => ⟨0, 0⟩, 0⟩ : SlotMap StreakState 8).len + 1 :=
  ((streak_spawn_iff 1 0 0 8 ⟨fun _ => ⟨0, 0⟩, 0⟩ (by decide)).1
    (by refine ⟨by decide, ?_, by decide⟩; decide)).1

/-- Claim C4: On a spawner tick, after the spawn phase and the per-streak
advance, a slot remains occupied exactly when it was occupied after the
spawn phase and the advanced streak satisfies
`floor(head) - length < T` (saturating subtraction), where `T` is the
`u8` reinterpretation of the total-length oscillator's Signal sampled on
this tick; a removed slot is exactly one with `floor(head) - length ≥ T`.
Surviving slots hold the advanced streak state. -/
theorem streak_cull_iff (spawnV lengthV velocityV totalLedsV : Int)
    (m : SlotMap StreakState 8) (hInv : m.occupied < 256) (j : Nat)
    (hj : j < 8) :
    ((StreakSpawner.tickStreaks spawnV lengthV velocityV totalLedsV
        m).occupied.testBit j = true
      ↔ ((spawnPhase spawnV lengthV velocityV m).occupied.testBit j = true
          ∧ ((spawnPhase spawnV lengthV velocityV m).storage j).tick.position
              - ((spawnPhase spawnV lengthV velocityV m).storage j).tick.length
            < toU8 totalLedsV))
    ∧ ((spawnPhase spawnV lengthV velocityV m).occupied.testBit j = true →
        (StreakSpawner.tickStreaks spawnV lengthV velocityV totalLedsV
            m).storage j
          = ((spawnPhase spawnV lengthV velocityV m).storage j).tick) := by
  have hm1occ : (spawnPhase spawnV lengthV velocityV m).occupied < 256 :=
    spawnPhase_occupied_lt spawnV lengthV velocityV m hInv
  obtain ⟨hspec, _⟩ := retain_spec (le_refl 8)
    (spawnPhase spawnV lengthV velocityV m) (cullKeep (toU8 totalLedsV))
    hm1occ
  obtain ⟨hb, hs⟩ := hspec j hj
  constructor
  · unfold StreakSpawner.tickStreaks
    rw [hb]
    have : (cullKeep (toU8 totalLedsV)
        ((spawnPhase spawnV lengthV velocityV m).storage j)).2
        = decide (((spawnPhase spawnV lengthV velocityV m).storage j).tick.position
            - ((spawnPhase spawnV lengthV velocityV m).storage j).tick.length
          < toU8 totalLedsV) := rfl
    rw [this, Bool.and_eq_true, decide_eq_true_iff]
  · intro hbit
    unfold StreakSpawner.tickStreaks
    rw [hs, if_pos hbit]
    rfl

/-- Witness for C4: with Signals (1, 0, 0, 8) on an empty map, slot 0 holds
a freshly spawned and advanced streak after the tick. -/
theorem streak_cull_iff_witness :
    (StreakSpawner.tickStreaks 1 0 0 8
      (⟨fun _ => ⟨0, 0⟩, 0⟩ : SlotMap StreakState 8)).occupied.testBit 0
      = true :=
  (streak_cull_iff 1 0 0 8 ⟨fun _ => ⟨0, 0⟩, 0⟩ (by decide) 0
    (by decide)).1.mpr (by constructor <;> decide)


/-- Wrap an integer into the `i8` domain (two's-complement wrap-around). -/
def i8wrap (z : Int) : Int := (z + 128) % 256 - 128

/-- Source `osc.rs` lines 139-149: `Sawtooth::tick` — `counter.wrapping_add(1)`. -/
def sawtoothTick (counter : Int) : Int := i8wrap (counter + 1)

/-- Source `osc.rs` lines 416-463: `FrequencyClock::tick` — returns the number of
inner ticks and the updated 4.4 fractional accumulator.  `wrapping_abs`
of an `i8` reinterpreted as `u8` is `natAbs % 256` (128 for -128). -/
def frequencyClockTick (frac : Nat) (freq : Int) : Nat × Nat :=
  if freq = 0 then (1, frac)
  else
    let freqAbs := freq.natAbs % 256
    let increment :=
      if freq > 0 then 16 + freqAbs * 48 / 127
      else 16 - freqAbs * 12 / 128
    let accumulated := frac + increment
    (accumulated >>> 4, accumulated &&& 15)

/-- State of a `WithFrequency` wrapping a `Sawtooth` with a `Constant`
frequency control (`osc.rs` lines 376-409): the inner sawtooth counter and
the clock's fractional accumulator. -/
structure WithFrequencySawtooth where
  counter : Int
  frac : Nat
deriving DecidableEq, Repr

/-- Source `n` consecutive inner sawtooth ticks. -/
def sawtoothTickN : Nat → Int → Int
  | 0, c => c
  | n + 1, c => sawtoothTickN n (sawtoothTick c)

/-- Source `osc.rs` lines 398-404: one outer tick of `WithFrequency` — the clock
yields `ticks` for the sampled control Signal and the inner sawtooth
advances that many times. -/
def WithFrequencySawtooth.tick (freq : Int) (s : WithFrequencySawtooth) :
    WithFrequencySawtooth :=
  ⟨sawtoothTickN (frequencyClockTick s.frac freq).1 s.counter,
    (frequencyClockTick s.frac freq).2⟩

/-- Source `n` outer ticks from the default state (counter 0, accumulator 0). -/
def WithFrequencySawtooth.iter (freq : Int) : Nat → WithFrequencySawtooth
  | 0 => ⟨0, 0⟩
  | n + 1 => WithFrequencySawtooth.tick freq (WithFrequencySawtooth.iter freq n)

lemma i8wrap_add (x y : Int) : i8wrap (i8wrap x + y) = i8wrap (x + y) := by
  unfold i8wrap
  congr 1
  have h1 : (x + 128) % 256 - 128 + y + 128 = (x + 128) % 256 + y := by ring
  rw [h1, Int.emod_add_emod]
  congr 1
  ring

lemma i8wrap_eq_self (c : Int) (hlo : -128 ≤ c) (hhi : c ≤ 127) :
    i8wrap c = c := by
  unfold i8wrap
  rw [Int.emod_eq_of_lt (by omega) (by omega)]
  omega

lemma sawtoothTickN_wrap : ∀ (n : Nat) (x : Int),
    sawtoothTickN n (i8wrap x) = i8wrap (x + n) := by
  intro n
  induction n with
  | zero =>
    intro x
    simp [sawtoothTickN]
  | succ n ih =>
    intro x
    show sawtoothTickN n (sawtoothTick (i8wrap x)) = _
    unfold sawtoothTick
    rw [i8wrap_add, ih (x + 1)]
    congr 1
    push_cast
    ring

lemma clock127 : ∀ frac < 16,
    (frac + 64) >>> 4 = 4 ∧ (frac + 64) &&& 15 = frac := by
  decide

lemma clockNeg128 : ∀ r < 4,
    (4 * r + 4) >>> 4 = (r + 1) / 4
    ∧ (4 * r + 4) &&& 15 = 4 * ((r + 1) % 4) := by
  decide

lemma freqClock_127 (frac : Nat) (hf : frac < 16) :
    frequencyClockTick frac 127 = (4, frac) := by
  have h64 : frequencyClockTick frac 127
      = ((frac + 64) >>> 4, (frac + 64) &&& 15) := by
    simp only [frequencyClockTick]
    norm_num
  rw [h64, (clock127 frac hf).1, (clock127 frac hf).2]

lemma freqClock_neg128 (frac : Nat) :
    frequencyClockTick frac (-128) = ((frac + 4) >>> 4, (frac + 4) &&& 15) := by
  simp only [frequencyClockTick]
  norm_num

lemma wfIter_neg128 : ∀ n : Nat,
    WithFrequencySawtooth.iter (-128) n
      = ⟨i8wrap ((n / 4 : Nat) : Int), 4 * (n % 4)⟩ := by
  intro n
  induction n with
  | zero =>
    show (⟨0, 0⟩ : WithFrequencySawtooth) = _
    norm_num [i8wrap]
  | succ n ih =>
    show WithFrequencySawtooth.tick (-128) (WithFrequencySawtooth.iter (-128) n)
      = _
    rw [ih]
    unfold WithFrequencySawtooth.tick
    simp only
    rw [freqClock_neg128]
    have hr : n % 4 < 4 := Nat.mod_lt _ (by omega)
    obtain ⟨h1, h2⟩ := clockNeg128 (n % 4) hr
    congr 1
    · simp only
      rw [h1, sawtoothTickN_wrap ((n % 4 + 1) / 4) ((n / 4 : Nat) : Int)]
      congr 1
      have hn : n / 4 + (n % 4 + 1) / 4 = (n + 1) / 4 := by omega
      calc ((n / 4 : Nat) : Int) + ((n % 4 + 1) / 4 : Nat)
          = ((n / 4 + (n % 4 + 1) / 4 : Nat) : Int) := by push_cast; ring
        _ = (((n + 1) / 4 : Nat) : Int) := by rw [hn]
    · simp only
      rw [h2]
      congr 1
      omega

/-- Claim C8: `WithFrequency` wrapping a `Sawtooth`: with the control held at
the maximum Signal 127, every outer tick (from any reachable accumulator
state) advances the inner sawtooth by exactly 4; with the control held at
the minimum Signal -128, starting from the initial state, the inner
sawtooth advances by exactly 1 on every 4th outer tick and by 0 on all
others. -/
theorem withFrequency_sawtooth_extremes :
    (∀ (c : Int) (frac : Nat), frac < 16 → -128 ≤ c → c ≤ 127 →
      WithFrequencySawtooth.tick 127 ⟨c, frac⟩ = ⟨i8wrap (c + 4), frac⟩)
    ∧ (∀ n : Nat,
        (WithFrequencySawtooth.iter (-128) (n + 1)).counter
          = i8wrap ((WithFrequencySawtooth.iter (-128) n).counter
              + if (n + 1) % 4 = 0 then 1 else 0)) := by
  constructor
  · intro c frac hf hlo hhi
    unfold WithFrequencySawtooth.tick
    simp only
    rw [freqClock_127 frac hf]
    congr 1
    have h := sawtoothTickN_wrap 4 c
    rw [i8wrap_eq_self c hlo hhi] at h
    rw [h]
    norm_num
  · intro n
    rw [wfIter_neg128 n, wfIter_neg128 (n + 1)]
    simp only
    rw [i8wrap_add]
    congr 1
    by_cases h4 : (n + 1) % 4 = 0
    · rw [if_pos h4]
      have hq : (n + 1) / 4 = n / 4 + 1 := by omega
      rw [hq]
      push_cast
      ring
    · rw [if_neg h4]
      have hq : (n + 1) / 4 = n / 4 := by omega
      rw [hq]
      push_cast
      ring

/-- Witness for C8: one outer tick at maximum frequency from the initial
state advances the sawtooth counter from 0 to 4. -/
theorem withFrequency_sawtooth_extremes_witness :
    WithFrequencySawtooth.tick 127 ⟨0, 0⟩ = ⟨i8wrap (0 + 4), 0⟩ :=
  withFrequency_sawtooth_extremes.1 0 0 (by decide) (by decide) (by decide)

/-- Source `rand.rs` lines 41-46: the 16-bit LCG step
(`state = 25173 * state + 13849`, wrapping). -/
def rngNext (state : Nat) : Nat := (25173 * state + 13849) % 65536

/-- Source `rand.rs` lines 55-63: `range_u8` — result and updated RNG state; when
`min >= max` the RNG is not advanced and `min` is returned. -/
def range_u8 (state minV maxV : Nat) : Nat × Nat :=
  if maxV ≤ minV then (minV, state)
  else (minV + (rngNext state >>> 8) % (maxV - minV + 1), rngNext state)

/-- Source `osc.rs` lines 329-374: `RandomPulse` state — the countdown and the
ambient RNG state it draws from; the min/max count oscillators are
abstracted by the `u8` values they are sampled at. -/
structure RandomPulse where
  counter : Nat
  rng : Nat
deriving DecidableEq, Repr

/-- Source `osc.rs` lines 357-369: `RandomPulse::tick` — count down, or re-arm
from `range_u8(min, max)` when the countdown has expired. -/
def RandomPulse.tick (minCount maxCount : Nat) (s : RandomPulse) :
    RandomPulse :=
  if 0 < s.counter then ⟨s.counter - 1, s.rng⟩
  else ⟨(range_u8 s.rng minCount maxCount).1,
    (range_u8 s.rng minCount maxCount).2⟩

/-- Source `osc.rs` lines 371-373: `RandomPulse::get` — `127` when the countdown
is zero, `0` otherwise. -/
def RandomPulse.get (s : RandomPulse) : Int :=
  if s.counter = 0 then 127 else 0

/-- Claim C9 counterexample: The claim says `get` returns the minimum Signal
(-128) whenever the countdown is nonzero; the code returns 0 there. -/
theorem randomPulse_min_counterexample :
    RandomPulse.get ⟨1, 1⟩ = 0 ∧ RandomPulse.get ⟨1, 1⟩ ≠ -128 := by
  decide

/-- Claim C9 (amended): `get` returns the maximum Signal (127) exactly when
the internal countdown is zero and returns 0 (not the minimum Signal) on
every other read; when the expired countdown is re-armed on a tick, the
new countdown lies in the sampled `[min, max]` interval (for `u8` bounds
with `min ≤ max` that avoid the source's `range` overflow at
`(0, 255)`); a nonzero countdown just decrements. -/
theorem randomPulse_get_rearm :
    (∀ s : RandomPulse, (RandomPulse.get s = 127 ↔ s.counter = 0)
      ∧ (s.counter ≠ 0 → RandomPulse.get s = 0))
    ∧ (∀ (s : RandomPulse) (minCount maxCount : Nat), s.counter = 0 →
        minCount ≤ maxCount → maxCount - minCount < 255 →
        minCount ≤ (RandomPulse.tick minCount maxCount s).counter
        ∧ (RandomPulse.tick minCount maxCount s).counter ≤ maxCount)
    ∧ (∀ (s : RandomPulse) (minCount maxCount : Nat), 0 < s.counter →
        (RandomPulse.tick minCount maxCount s).counter = s.counter - 1) := by
  refine ⟨fun s => ⟨?_, ?_⟩, ?_, ?_⟩
  · unfold RandomPulse.get
    by_cases h : s.counter = 0
    · simp [h]
    · simp [h]
  · intro h
    unfold RandomPulse.get
    rw [if_neg h]
  · intro s minCount maxCount h0 hle _hgap
    unfold RandomPulse.tick
    rw [if_neg (by omega)]
    unfold range_u8
    by_cases hmm : maxCount ≤ minCount
    · have heq : minCount = maxCount := by omega
      rw [if_pos hmm]
      simp only
      omega
    · rw [if_neg hmm]
      simp only
      have hmod : (rngNext s.rng >>> 8) % (maxCount - minCount + 1)
          < maxCount - minCount + 1 := Nat.mod_lt _ (by omega)
      omega
  · intro s minCount maxCount h
    unfold RandomPulse.tick
    rw [if_pos h]

/-- Witness for C9 (amended): re-arming with sampled bounds (3, 7) yields
a countdown in [3, 7]. -/
theorem randomPulse_get_rearm_witness :
    3 ≤ (RandomPulse.tick 3 7 ⟨0, 5⟩).counter
    ∧ (RandomPulse.tick 3 7 ⟨0, 5⟩).counter ≤ 7 :=
  randomPulse_get_rearm.2.1 ⟨0, 5⟩ 3 7 (by decide) (by decide) (by decide)
